import Mathlib

/-!
Verification of the selection-to-list-items parser of the
mccarren-office-challenge Word add-in (src/taskpane/taskpane.ts).

Strings are embedded as lists of characters; the JavaScript string
operations used by the source (`trim`, global regex replacement,
`split`, `filter(Boolean)`) are modelled by executable functions below,
and the two source functions `parseItems` and `stripPrefix` (the latter
named `stripBullet` here) are translated line by line.
-/

/-- Character lists standing for JavaScript strings. -/
abbrev Str := List Char

/-- JavaScript whitespace, the character class matched by `String.prototype.trim`
and by the regex class `\s` (ECMAScript WhiteSpace plus LineTerminator). -/
def isWs (c : Char) : Bool :=
  c == '\t' || c == '\n' || c == '\x0B' || c == '\x0C' || c == '\r' || c == ' ' ||
  c == '\u00A0' || c == '\u1680' ||
  (decide ('\u2000' ≤ c) && decide (c ≤ '\u200A')) ||
  c == '\u2028' || c == '\u2029' || c == '\u202F' || c == '\u205F' ||
  c == '\u3000' || c == '\uFEFF'

/-- JavaScript `s.trim()`: drop whitespace from both ends. -/
def trim (s : Str) : Str := (s.dropWhile isWs).rdropWhile isWs

/-- Global replacement of the two-character pattern `[a, b]` by the single
character `r`, scanning left to right without overlap: the model of the
source's `replace(/XY/g, "Z")` calls on two-character patterns. -/
def replacePair (a b r : Char) : Str → Str
  | [] => []
  | [c] => [c]
  | c :: d :: rest =>
    if c == a && d == b then r :: replacePair a b r rest
    else c :: replacePair a b r (d :: rest)

/-- Global replacement of one character by another, the model of the
source's `replace(/X/g, "Y")` calls on single-character patterns. -/
def mapChar (x y : Char) (s : Str) : Str :=
  s.map (fun c => if c == x then y else c)

/-- Lines 61-62 of the source: `t.replace(/\\r/g, "\n").replace(/\\n/g, "\n")`,
turning the literal two-character texts backslash-r and backslash-n into a
real newline. -/
def normalizeEscapes (s : Str) : Str :=
  replacePair '\\' 'n' '\n' (replacePair '\\' 'r' '\n' s)

/-- Lines 65-69 of the source: CRLF, lone CR, U+2028 and U+2029 are all
normalized into a real newline. -/
def normalizeBreaks (s : Str) : Str :=
  mapChar '\u2029' '\n'
    (mapChar '\u2028' '\n'
      (mapChar '\r' '\n'
        (replacePair '\r' '\n' '\n' s)))

/-- Full normalization pipeline applied to the raw selection before the
separator decision: trim, then escape normalization, then break
normalization. -/
def normText (s : Str) : Str := normalizeBreaks (normalizeEscapes (trim s))

/-- JavaScript `t.includes(c)` for a single character. -/
def hasChar (c : Char) (s : Str) : Bool := s.any (· == c)

/-- JavaScript `t.split(sep)` where every character satisfying `p` is a
separator: separators are removed and consecutive separators yield empty
segments, exactly as `String.prototype.split`. -/
def splitP (p : Char → Bool) : Str → List Str
  | [] => [[]]
  | c :: rest =>
    if p c then [] :: splitP p rest
    else
      match splitP p rest with
      | [] => [[c]]
      | s :: ss => (c :: s) :: ss

/-- The character class `[\\,]` of the source's comma/backslash split. -/
def isSepBC (c : Char) : Bool := c == '\\' || c == ','

/-- The newline separator of the source's line split. -/
def isNl (c : Char) : Bool := c == '\n'

/-- Length of the leading match of the regex alternation
`•|\-|\*|\(\d+\)|\d+[.)]` at the start of `s`, `none` when no
alternative matches at position 0. The alternatives start with distinct
characters, so ordered alternation and greedy `\d+` need no backtracking. -/
def altLen (s : Str) : Option Nat :=
  match s with
  | [] => none
  | c :: rest =>
    if c == '\u2022' || c == '-' || c == '*' then some 1
    else if c == '(' then
      if (rest.takeWhile Char.isDigit).isEmpty then none
      else
        match rest.drop (rest.takeWhile Char.isDigit).length with
        | ')' :: _ => some ((rest.takeWhile Char.isDigit).length + 2)
        | _ => none
    else
      if ((c :: rest).takeWhile Char.isDigit).isEmpty then none
      else
        match (c :: rest).drop ((c :: rest).takeWhile Char.isDigit).length with
        | '.' :: _ => some (((c :: rest).takeWhile Char.isDigit).length + 1)
        | ')' :: _ => some (((c :: rest).takeWhile Char.isDigit).length + 1)
        | _ => none

/-- Lines 88-91 of the source (the bullet-marker stripper named
`stripPrefix` there): `s.replace(/^(•|\-|\*|\(\d+\)|\d+[.)])\s*/g, "").trim()`.
With the start anchor and no multiline flag the global regex fires at most
once, removing one leading alternative plus following whitespace. -/
def stripBullet (s : Str) : Str :=
  match altLen s with
  | some n => trim ((s.drop n).dropWhile isWs)
  | none => trim s

/-- Lines 73-77 / 81-85 of the source: `.map(s => s.trim()).filter(Boolean).map(stripPrefix)`
applied to the raw segments of the chosen split. -/
def cleanSegments (segs : List Str) : List Str :=
  ((segs.map trim).filter (fun s => !s.isEmpty)).map stripBullet

/-- Lines 55-86 of the source, `parseItems`: guard on empty input, trim,
normalize escapes and breaks, then split on backslash/comma when the
normalized text has no newline but has a backslash or comma, otherwise
split on newlines; clean the segments either way. -/
def parseItems (s : Str) : List Str :=
  if trim s = [] then []
  else
    let t := normText s
    if !hasChar '\n' t && (hasChar '\\' t || hasChar ',' t) then
      cleanSegments (splitP isSepBC t)
    else
      cleanSegments (splitP isNl t)

/-- Segment-level view of the cleaning pass: a segment empty after trimming
contributes nothing, any other segment contributes its trimmed,
bullet-stripped form. -/
def procSeg (seg : Str) : Option Str :=
  if (trim seg).isEmpty then none else some (stripBullet (trim seg))

/-- The raw segments the source feeds into the cleaning pass: the result of
the chosen split, before trimming and filtering. -/
def rawSegments (s : Str) : List Str :=
  if trim s = [] then []
  else
    let t := normText s
    if !hasChar '\n' t && (hasChar '\\' t || hasChar ',' t) then splitP isSepBC t
    else splitP isNl t

/-- Document mutations issued by the bullet-conversion flow, lines 160-177
of the source: replacing the selection, inserting the first paragraph, and
inserting a further list paragraph. -/
inductive DocAction where
  | replaceSelection : Str → DocAction
  | insertParagraph : Str → DocAction
  | listInsert : Str → DocAction
deriving DecidableEq

/-- Terminal status severities of the source's `setStatus`. -/
inductive StatusKind where
  | info
  | success
  | error
deriving DecidableEq

/-- Lines 150-187 of the source, `bulletsFromSelection`, absent host
failures: the flow posts the busy info status, runs the `Word.run` callback
— which, when parse yields no items, posts the empty-selection error status
and returns having mutated nothing, and otherwise replaces the selection
and inserts one paragraph per item — and then posts the success status of
line 180. That success post is unconditional, because the early `return`
of line 164 exits only the callback, not the enclosing function. The
result is the ordered list of document mutations together with the ordered
list of posted status severities; the last severity is the terminal
user-visible status. -/
def bulletsFromSelection (selText : Str) : List DocAction × List StatusKind :=
  match parseItems selText with
  | [] => ([], [StatusKind.info, StatusKind.error, StatusKind.success])
  | first :: rest =>
      (DocAction.replaceSelection [] :: DocAction.insertParagraph first ::
        rest.map DocAction.listInsert,
       [StatusKind.info, StatusKind.success])

/-- Core of a bullet/numbering marker as the spec enumerates it: a bullet
glyph, hyphen, asterisk, parenthesized integer, or integer followed by a
dot or closing parenthesis. -/
def isBulletCore (core : Str) : Prop :=
  core = ['\u2022'] ∨ core = ['-'] ∨ core = ['*'] ∨
  (∃ ds, ds ≠ [] ∧ (∀ c ∈ ds, c.isDigit = true) ∧ core = '(' :: ds ++ [')']) ∨
  (∃ ds lc, ds ≠ [] ∧ (∀ c ∈ ds, c.isDigit = true) ∧ (lc = '.' ∨ lc = ')') ∧
    core = ds ++ [lc])

/-- A full strippable leading marker: a bullet/numbering core followed by
whitespace. -/
def isBulletPat (p : Str) : Prop :=
  ∃ core ws, (∀ c ∈ ws, isWs c = true) ∧ isBulletCore core ∧ p = core ++ ws

example : parseItems "apple, banana, cherry".toList =
    ["apple".toList, "banana".toList, "cherry".toList] := by decide

example : parseItems "a, b\nc, d".toList = ["a, b".toList, "c, d".toList] := by decide

example : parseItems "apple\\banana\\cherry".toList =
    ["apple".toList, "banana".toList, "cherry".toList] := by decide

example : parseItems "1) First\n2) Second\n- Third".toList =
    ["First".toList, "Second".toList, "Third".toList] := by decide

example : parseItems "-".toList = [[]] := by decide

example : parseItems "\n\napple\n\n".toList = ["apple".toList] := by decide

example : parseItems "a\\nb".toList = ["a".toList, "b".toList] := by decide

/-! Basic properties of the string-operation models. -/

lemma dropWhile_rdropWhile_fixed (p : Char → Bool) (x : Str) (hx : x.dropWhile p = x) :
    (x.rdropWhile p).dropWhile p = x.rdropWhile p := by
  cases x with
  | nil => simp [List.rdropWhile]
  | cons c x' =>
    have hc : p c = false := by
      cases hcv : p c
      · rfl
      · exfalso
        rw [List.dropWhile_cons, hcv] at hx
        simp only [if_true] at hx
        have hlen := congrArg List.length hx
        have hle : (x'.dropWhile p).length ≤ x'.length :=
          (List.dropWhile_sublist p).length_le
        simp at hlen
        omega
    have hpre : (c :: x').rdropWhile p <+: (c :: x') := List.rdropWhile_prefix p _
    cases hr : (c :: x').rdropWhile p with
    | nil => rfl
    | cons d l =>
      rw [hr] at hpre
      obtain ⟨t, ht⟩ := hpre
      have hd : d = c := by
        rw [List.cons_append] at ht
        exact (List.cons_eq_cons.mp ht).1
      subst hd
      rw [List.dropWhile_cons, hc]
      simp

lemma trim_idem (s : Str) : trim (trim s) = trim s := by
  unfold trim
  rw [dropWhile_rdropWhile_fixed isWs (s.dropWhile isWs) (List.dropWhile_idempotent isWs s),
    List.rdropWhile_idempotent]

lemma trim_nil : trim [] = [] := rfl

lemma trim_eq_nil_iff (s : Str) : trim s = [] ↔ ∀ c ∈ s, isWs c = true := by
  constructor
  · intro h c hc
    unfold trim at h
    rw [List.rdropWhile_eq_nil_iff] at h
    rcases List.mem_append.mp ((List.takeWhile_append_dropWhile isWs s) ▸ hc) with hm | hm
    · exact List.mem_takeWhile_imp hm
    · exact h c hm
  · intro h
    unfold trim
    rw [List.dropWhile_eq_nil_iff.mpr h]
    rfl

lemma mem_of_mem_trim (c : Char) (s : Str) (h : c ∈ trim s) : c ∈ s := by
  unfold trim at h
  have h1 : c ∈ s.dropWhile isWs :=
    ( List.rdropWhile_prefix isWs (s.dropWhile isWs)).sublist.subset h
  exact (List.dropWhile_sublist isWs).subset h1

lemma trim_cons_concat (c d : Char) (m : Str) (hc : isWs c = false) (hd : isWs d = false) :
    trim (c :: (m ++ [d])) = c :: (m ++ [d]) := by
  unfold trim
  rw [List.dropWhile_cons, hc]
  simp only [Bool.false_eq_true, if_false]
  have : c :: (m ++ [d]) = (c :: m) ++ [d] := rfl
  rw [this, List.rdropWhile_concat_neg]
  simp [hd]

lemma replacePair_append (a b r : Char) (xs ys : Str) (hxs : a ∉ xs) :
    replacePair a b r (xs ++ ys) = xs ++ replacePair a b r ys := by
  induction xs with
  | nil => rfl
  | cons x xs ih =>
    have hx : x ≠ a := fun h => hxs (h ▸ List.mem_cons_self x xs)
    have hxs' : a ∉ xs := fun h => hxs (List.mem_cons_of_mem x h)
    cases hxy : xs ++ ys with
    | nil =>
      obtain ⟨rfl, rfl⟩ := List.append_eq_nil.mp hxy
      simp [replacePair]
    | cons e rest =>
      show replacePair a b r (x :: (xs ++ ys)) = x :: (xs ++ replacePair a b r ys)
      rw [hxy]
      simp only [replacePair]
      rw [if_neg (by simp [hx])]
      rw [← hxy, ih hxs']

lemma replacePair_eq_self (a b r : Char) (s : Str) (h : a ∉ s) :
    replacePair a b r s = s := by
  have := replacePair_append a b r s [] h
  simpa [replacePair] using this

lemma mem_replacePair (a b r : Char) (s : Str) (c : Char) :
    c ∈ replacePair a b r s → c ∈ s ∨ c = r := by
  induction s using replacePair.induct a b r with
  | case1 => intro h; simp [replacePair] at h
  | case2 d => intro h; simp [replacePair] at h; left; simp [h]
  | case3 x d rest hm ih =>
    intro h
    simp only [replacePair] at h
    rw [if_pos hm] at h
    rcases List.mem_cons.mp h with h | h
    · right; exact h
    · rcases ih h with h | h
      · left; exact List.mem_cons_of_mem _ (List.mem_cons_of_mem _ h)
      · right; exact h
  | case4 x d rest hm ih =>
    intro h
    simp only [replacePair] at h
    rw [if_neg hm] at h
    rcases List.mem_cons.mp h with h | h
    · left; exact h ▸ List.mem_cons_self x (d :: rest)
    · rcases ih h with h | h
      · left; exact List.mem_cons_of_mem _ h
      · right; exact h

lemma mapChar_eq_self (x y : Char) (s : Str) (h : x ∉ s) : mapChar x y s = s := by
  unfold mapChar
  induction s with
  | nil => rfl
  | cons c rest ih =>
    have hc : c ≠ x := fun hcx => h (hcx ▸ List.mem_cons_self c rest)
    have h' : x ∉ rest := fun hm => h (List.mem_cons_of_mem c hm)
    simp only [List.map_cons, ih h']
    rw [if_neg (by simp [hc])]

lemma mem_mapChar (x y c : Char) (s : Str) (h : c ∈ mapChar x y s) : c ∈ s ∨ c = y := by
  unfold mapChar at h
  obtain ⟨a, ha, hac⟩ := List.mem_map.mp h
  by_cases hax : a == x
  · rw [if_pos hax] at hac
    right; exact hac.symm
  · rw [if_neg hax] at hac
    left; exact hac ▸ ha

lemma not_mem_mapChar (x y : Char) (s : Str) (hxy : x ≠ y) : x ∉ mapChar x y s := by
  intro h
  rcases mem_mapChar x y x s h with h' | h'
  · unfold mapChar at h
    obtain ⟨a, ha, hac⟩ := List.mem_map.mp h
    by_cases hax : a == x
    · rw [if_pos hax] at hac; exact hxy hac.symm
    · rw [if_neg hax] at hac
      exact absurd (beq_iff_eq.mpr hac) hax
  · exact hxy h'

lemma not_mem_mapChar_of (x y c : Char) (s : Str) (hc : c ∉ s) (hcy : c ≠ y) :
    c ∉ mapChar x y s := by
  intro h
  rcases mem_mapChar x y c s h with h' | h'
  · exact hc h'
  · exact hcy h'

lemma splitP_ne_nil (p : Char → Bool) (l : Str) : splitP p l ≠ [] := by
  induction l with
  | nil => simp [splitP]
  | cons c rest ih =>
    simp only [splitP]
    by_cases hc : p c
    · rw [if_pos hc]; simp
    · rw [if_neg hc]
      cases h : splitP p rest with
      | nil => simp
      | cons s ss => simp

lemma mem_splitP (p : Char → Bool) (l : Str) (seg : Str) (c : Char) :
    seg ∈ splitP p l → c ∈ seg → c ∈ l ∧ p c = false := by
  induction l generalizing seg with
  | nil =>
    intro hseg hc
    simp [splitP] at hseg
    subst hseg
    simp at hc
  | cons x rest ih =>
    intro hseg hc
    simp only [splitP] at hseg
    by_cases hx : p x
    · rw [if_pos hx] at hseg
      rcases List.mem_cons.mp hseg with h | h
      · subst h; simp at hc
      · obtain ⟨hm, hp⟩ := ih seg h hc
        exact ⟨List.mem_cons_of_mem x hm, hp⟩
    · rw [if_neg hx] at hseg
      cases hsp : splitP p rest with
      | nil => exact absurd hsp (splitP_ne_nil p rest)
      | cons s ss =>
        rw [hsp] at hseg
        rcases List.mem_cons.mp hseg with h | h
        · subst h
          rcases List.mem_cons.mp hc with h | h
          · subst h
            refine ⟨List.mem_cons_self c rest, ?_⟩
            cases hcv : p c
            · rfl
            · exact absurd hcv hx
          · obtain ⟨hm, hp⟩ := ih s (hsp ▸ List.mem_cons_self s ss) h
            exact ⟨List.mem_cons_of_mem x hm, hp⟩
        · obtain ⟨hm, hp⟩ := ih seg (hsp ▸ List.mem_cons_of_mem s h) hc
          exact ⟨List.mem_cons_of_mem x hm, hp⟩

lemma cleanSegments_eq_filterMap (l : List Str) :
    cleanSegments l = l.filterMap procSeg := by
  induction l with
  | nil => rfl
  | cons seg rest ih =>
    by_cases h : (trim seg).isEmpty
    · simp only [cleanSegments, List.map_cons, List.filter_cons, h, Bool.not_true,
        List.filterMap_cons, procSeg, if_pos h]
      exact ih
    · simp only [cleanSegments, List.map_cons, List.filter_cons,
        Bool.not_eq_true', Bool.not_true, List.filterMap_cons, procSeg, if_neg h]
      rw [eq_false_of_ne_true h]
      simp only [Bool.not_false, if_true, List.map_cons]
      rw [← ih]
      rfl

lemma mem_cleanSegments (l : List Str) (x : Str) (hx : x ∈ cleanSegments l) :
    ∃ seg, seg ∈ l ∧ trim seg ≠ [] ∧ x = stripBullet (trim seg) := by
  simp only [cleanSegments, List.mem_map, List.mem_filter] at hx
  obtain ⟨y, ⟨hy, hne⟩, rfl⟩ := hx
  obtain ⟨seg, hseg, hy2⟩ := hy
  subst hy2
  refine ⟨seg, hseg, ?_, rfl⟩
  intro hnil
  rw [hnil] at hne
  simp at hne

lemma trim_stripBullet (s : Str) : trim (stripBullet s) = stripBullet s := by
  unfold stripBullet
  cases h : altLen s
  · exact trim_idem s
  · exact trim_idem _

lemma mem_of_mem_stripBullet (c : Char) (s : Str) (h : c ∈ stripBullet s) : c ∈ s := by
  unfold stripBullet at h
  cases ha : altLen s with
  | none => rw [ha] at h; exact mem_of_mem_trim c s h
  | some n =>
    rw [ha] at h
    have h1 : c ∈ (s.drop n).dropWhile isWs := mem_of_mem_trim c _ h
    have h2 : c ∈ s.drop n := (List.dropWhile_sublist isWs).subset h1
    exact (List.drop_sublist n s).subset h2

lemma normText_of_trim_nil (s : Str) (h : trim s = []) : normText s = [] := by
  unfold normText normalizeBreaks normalizeEscapes
  rw [h]
  rfl

lemma not_cr_normText (s : Str) : '\r' ∉ normText s := by
  unfold normText normalizeBreaks
  apply not_mem_mapChar_of
  · apply not_mem_mapChar_of
    · exact not_mem_mapChar '\r' '\n' _ (by decide)
    · decide
  · decide

lemma not_ls_normText (s : Str) : '\u2028' ∉ normText s := by
  unfold normText normalizeBreaks
  apply not_mem_mapChar_of
  · exact not_mem_mapChar '\u2028' '\n' _ (by decide)
  · decide

lemma not_ps_normText (s : Str) : '\u2029' ∉ normText s := by
  unfold normText normalizeBreaks
  exact not_mem_mapChar '\u2029' '\n' _ (by decide)

lemma not_hasChar_iff (a : Char) (t : Str) : hasChar a t = false ↔ a ∉ t := by
  unfold hasChar
  simp only [List.any_eq_false, beq_iff_eq]
  exact ⟨fun h ha => h a ha rfl, fun h x hx hxa => h (hxa ▸ hx)⟩

lemma parseItems_branch (s : Str) (h0 : trim s ≠ []) :
    parseItems s =
      if !hasChar '\n' (normText s) &&
          (hasChar '\\' (normText s) || hasChar ',' (normText s)) then
        cleanSegments (splitP isSepBC (normText s))
      else
        cleanSegments (splitP isNl (normText s)) := by
  simp only [parseItems]
  rw [if_neg h0]

/-- C1: when the normalized text has no line-break marker but has a backslash
or a comma, parse splits on every backslash and comma; when the normalized
text has a line-break marker, parse splits on line breaks only, never on
commas or backslashes; in particular the precedence and comma-fallback
examples of the spec hold. -/
theorem c1_separator_decision :
    (∀ s : Str,
      (hasChar '\n' (normText s) = false →
        (hasChar '\\' (normText s) || hasChar ',' (normText s)) = true →
        parseItems s = cleanSegments (splitP isSepBC (normText s))) ∧
      (hasChar '\n' (normText s) = true →
        parseItems s = cleanSegments (splitP isNl (normText s)))) ∧
    parseItems "a, b\nc, d".toList = ["a, b".toList, "c, d".toList] ∧
    parseItems "apple, banana, cherry".toList =
      ["apple".toList, "banana".toList, "cherry".toList] := by
  refine ⟨fun s => ⟨?_, ?_⟩, by decide, by decide⟩
  · intro hnl hsep
    have hts : trim s ≠ [] := by
      intro h0
      rw [normText_of_trim_nil s h0] at hsep
      simp [hasChar] at hsep
    rw [parseItems_branch s hts, if_pos]
    rw [hnl, hsep]
    rfl
  · intro hnl
    have hts : trim s ≠ [] := by
      intro h0
      rw [normText_of_trim_nil s h0] at hnl
      simp [hasChar] at hnl
    rw [parseItems_branch s hts, if_neg]
    rw [hnl]
    simp

theorem c1_witness :
    parseItems "x,y".toList = cleanSegments (splitP isSepBC (normText "x,y".toList)) ∧
    parseItems "x\ny".toList = cleanSegments (splitP isNl (normText "x\ny".toList)) :=
  ⟨(c1_separator_decision.1 _).1 (by decide) (by decide),
   (c1_separator_decision.1 _).2 (by decide)⟩

/-- C3: parse never fails (it is a total function of its argument in this
embedding) and any input made of whitespace characters only, including the
empty string, parses to the empty sequence. -/
theorem c3_whitespace_empty (s : Str) (h : ∀ c ∈ s, isWs c = true) :
    parseItems s = [] := by
  unfold parseItems
  rw [if_pos ((trim_eq_nil_iff s).mpr h)]

theorem c3_witness :
    parseItems [' ', '\t', '\n'] = [] ∧ parseItems [] = [] ∧
      parseItems ['\u3000'] = [] :=
  ⟨c3_whitespace_empty _ (by decide), c3_whitespace_empty _ (by decide),
   c3_whitespace_empty _ (by decide)⟩

/-- C6: parse processes the segments of the chosen split in order, each
surviving segment contributing one item in place, so item order matches
segment order in the input; the two ordering examples of the spec hold. -/
theorem c6_order_preserved :
    (∀ s : Str, parseItems s = (rawSegments s).filterMap procSeg) ∧
    parseItems "apple\nbanana\ncherry".toList =
      ["apple".toList, "banana".toList, "cherry".toList] ∧
    parseItems "apple\\banana\\cherry".toList =
      ["apple".toList, "banana".toList, "cherry".toList] := by
  refine ⟨fun s => ?_, by decide, by decide⟩
  simp only [parseItems, rawSegments]
  by_cases h0 : trim s = []
  · rw [if_pos h0, if_pos h0]
    rfl
  · rw [if_neg h0, if_neg h0]
    by_cases hc : (!hasChar '\n' (normText s) &&
        (hasChar '\\' (normText s) || hasChar ',' (normText s))) = true
    · rw [if_pos hc, if_pos hc]
      exact cleanSegments_eq_filterMap _
    · rw [if_neg hc, if_neg hc]
      exact cleanSegments_eq_filterMap _

/-- C7: every item parse returns is already trimmed, so trimming an item
again leaves it unchanged. -/
theorem c7_items_trimmed (s : Str) (x : Str) (hx : x ∈ parseItems s) :
    trim x = x := by
  simp only [parseItems] at hx
  by_cases h0 : trim s = []
  · rw [if_pos h0] at hx
    simp at hx
  · rw [if_neg h0] at hx
    by_cases hc : (!hasChar '\n' (normText s) &&
        (hasChar '\\' (normText s) || hasChar ',' (normText s))) = true
    · rw [if_pos hc] at hx
      obtain ⟨seg, hseg, hne, rfl⟩ := mem_cleanSegments _ _ hx
      exact trim_stripBullet _
    · rw [if_neg hc] at hx
      obtain ⟨seg, hseg, hne, rfl⟩ := mem_cleanSegments _ _ hx
      exact trim_stripBullet _

theorem c7_witness :
    "ab".toList ∈ parseItems "ab".toList ∧ trim "ab".toList = "ab".toList :=
  ⟨by decide, c7_items_trimmed "ab".toList "ab".toList (by decide)⟩

/-- C8: at the empty selection, parse returns no items and the flow issues
no document mutation — that half of the claim holds — but the flow does
not terminate on the error status: the error is posted and then the
unconditional success post of line 180 overwrites it, so the terminal
user-visible status at the failing input is success, not error, refuting
the claim's status half on the code. -/
theorem c8_error_status_overwritten :
    parseItems [] = [] ∧
    (bulletsFromSelection []).1 = [] ∧
    (bulletsFromSelection []).2 =
      [StatusKind.info, StatusKind.error, StatusKind.success] ∧
    (bulletsFromSelection []).2.getLast? = some StatusKind.success ∧
    (bulletsFromSelection []).2.getLast? ≠ some StatusKind.error ∧
    (bulletsFromSelection ['a']).1 ≠ [] ∧
    (bulletsFromSelection ['a']).2.getLast? = some StatusKind.success := by
  refine ⟨by decide, by decide, by decide, by decide, by decide, by decide, by decide⟩

/-- C9: parse is deterministic and, in this embedding of the source as a
pure function of the selection text alone, reads and writes no outside
state: equal inputs give equal outputs. -/
theorem c9_parse_deterministic (s₁ s₂ : Str) (h : s₁ = s₂) :
    parseItems s₁ = parseItems s₂ :=
  congrArg parseItems h

theorem c9_witness : parseItems "a".toList = parseItems "a".toList :=
  c9_parse_deterministic "a".toList "a".toList rfl

/-- C10: no item parse returns contains a linefeed, a carriage return, a
Unicode line separator, or a Unicode paragraph separator, in either split
path. -/
theorem c10_no_linebreak_in_items (s x : Str) (c : Char) (hx : x ∈ parseItems s)
    (hc : c ∈ x) :
    c ≠ '\n' ∧ c ≠ '\r' ∧ c ≠ '\u2028' ∧ c ≠ '\u2029' := by
  simp only [parseItems] at hx
  by_cases h0 : trim s = []
  · rw [if_pos h0] at hx
    simp at hx
  · rw [if_neg h0] at hx
    by_cases hcond : (!hasChar '\n' (normText s) &&
        (hasChar '\\' (normText s) || hasChar ',' (normText s))) = true
    · rw [if_pos hcond] at hx
      obtain ⟨seg, hseg, hne, rfl⟩ := mem_cleanSegments _ _ hx
      have hcseg : c ∈ seg := mem_of_mem_trim c seg (mem_of_mem_stripBullet c _ hc)
      obtain ⟨hct, hsep⟩ := mem_splitP isSepBC (normText s) seg c hseg hcseg
      have hnl : hasChar '\n' (normText s) = false := by
        rw [Bool.and_eq_true] at hcond
        have := hcond.1
        simp at this
        exact this
      refine ⟨?_, ?_, ?_, ?_⟩
      · intro hceq
        subst hceq
        exact (not_hasChar_iff '\n' _).mp hnl hct
      · intro hceq
        subst hceq
        exact not_cr_normText s hct
      · intro hceq
        subst hceq
        exact not_ls_normText s hct
      · intro hceq
        subst hceq
        exact not_ps_normText s hct
    · rw [if_neg hcond] at hx
      obtain ⟨seg, hseg, hne, rfl⟩ := mem_cleanSegments _ _ hx
      have hcseg : c ∈ seg := mem_of_mem_trim c seg (mem_of_mem_stripBullet c _ hc)
      obtain ⟨hct, hsep⟩ := mem_splitP isNl (normText s) seg c hseg hcseg
      refine ⟨?_, ?_, ?_, ?_⟩
      · intro hceq
        subst hceq
        simp [isNl] at hsep
      · intro hceq
        subst hceq
        exact not_cr_normText s hct
      · intro hceq
        subst hceq
        exact not_ls_normText s hct
      · intro hceq
        subst hceq
        exact not_ps_normText s hct

theorem c10_witness :
    ("a".toList ∈ parseItems "a\nb".toList) ∧
    ('a' ≠ '\n' ∧ 'a' ≠ '\r' ∧ 'a' ≠ '\u2028' ∧ 'a' ≠ '\u2029') :=
  ⟨by decide,
   c10_no_linebreak_in_items "a\nb".toList "a".toList 'a' (by decide) (by decide)⟩

lemma take_append_one (ds : Str) (e : Char) (tl : Str) :
    (ds ++ e :: tl).take (ds.length + 1) = ds ++ [e] := by
  rw [List.take_append]
  rfl

lemma take_cons_append_one (c : Char) (ds : Str) (e : Char) (tl : Str) :
    (c :: (ds ++ e :: tl)).take (ds.length + 2) = c :: (ds ++ [e]) := by
  show c :: ((ds ++ e :: tl).take (ds.length + 1)) = c :: (ds ++ [e])
  rw [take_append_one]

lemma bulletCore_of_altLen (s : Str) (n : Nat) (h : altLen s = some n) :
    isBulletCore (s.take n) := by
  cases s with
  | nil => simp [altLen] at h
  | cons c rest =>
    simp only [altLen] at h
    by_cases h1 : (c == '\u2022' || c == '-' || c == '*') = true
    · rw [if_pos h1] at h
      have hn : 1 = n := by injection h
      subst hn
      show isBulletCore [c]
      simp only [Bool.or_eq_true, beq_iff_eq] at h1
      unfold isBulletCore
      rcases h1 with (h1 | h1) | h1
      · left
        rw [h1]
      · right; left
        rw [h1]
      · right; right; left
        rw [h1]
    · rw [if_neg h1] at h
      by_cases h2 : (c == '(') = true
      · rw [if_pos h2] at h
        by_cases h3 : (rest.takeWhile Char.isDigit).isEmpty = true
        · rw [if_pos h3] at h
          simp at h
        · rw [if_neg h3] at h
          have hds_ne : rest.takeWhile Char.isDigit ≠ [] := by
            intro hnil
            rw [hnil] at h3
            exact h3 rfl
          have hpre : rest.takeWhile Char.isDigit <+: rest :=
            List.takeWhile_prefix Char.isDigit
          obtain ⟨t, ht⟩ := hpre
          have hdrop := List.drop_left (rest.takeWhile Char.isDigit) t
          rw [ht] at hdrop
          split at h
          · next tail heq =>
            have hn : (rest.takeWhile Char.isDigit).length + 2 = n := by injection h
            subst hn
            have hc : c = '(' := by simpa using h2
            subst hc
            have htt : t = ')' :: tail := hdrop.symm.trans heq
            subst htt
            obtain ⟨ds, hds⟩ : ∃ ds, rest.takeWhile Char.isDigit = ds := ⟨_, rfl⟩
            have hdig : ∀ d ∈ ds, d.isDigit = true := by
              intro d hd
              rw [← hds] at hd
              exact List.mem_takeWhile_imp hd
            rw [hds] at ht hds_ne ⊢
            rw [← ht, take_cons_append_one]
            unfold isBulletCore
            right; right; right; left
            exact ⟨ds, hds_ne, hdig, rfl⟩
          · next => simp at h
      · rw [if_neg h2] at h
        by_cases h3 : ((c :: rest).takeWhile Char.isDigit).isEmpty = true
        · rw [if_pos h3] at h
          simp at h
        · rw [if_neg h3] at h
          have hds_ne : (c :: rest).takeWhile Char.isDigit ≠ [] := by
            intro hnil
            rw [hnil] at h3
            exact h3 rfl
          have hpre : (c :: rest).takeWhile Char.isDigit <+: (c :: rest) :=
            List.takeWhile_prefix Char.isDigit
          obtain ⟨t, ht⟩ := hpre
          have hdrop := List.drop_left ((c :: rest).takeWhile Char.isDigit) t
          rw [ht] at hdrop
          split at h
          · next tail heq =>
            have hn : ((c :: rest).takeWhile Char.isDigit).length + 1 = n := by injection h
            subst hn
            have htt : t = '.' :: tail := hdrop.symm.trans heq
            subst htt
            obtain ⟨ds, hds⟩ : ∃ ds, (c :: rest).takeWhile Char.isDigit = ds := ⟨_, rfl⟩
            have hdig : ∀ d ∈ ds, d.isDigit = true := by
              intro d hd
              rw [← hds] at hd
              exact List.mem_takeWhile_imp hd
            rw [hds] at ht hds_ne ⊢
            rw [← ht, take_append_one]
            unfold isBulletCore
            right; right; right; right
            exact ⟨ds, '.', hds_ne, hdig, Or.inl rfl, rfl⟩
          · next tail heq =>
            have hn : ((c :: rest).takeWhile Char.isDigit).length + 1 = n := by injection h
            subst hn
            have htt : t = ')' :: tail := hdrop.symm.trans heq
            subst htt
            obtain ⟨ds, hds⟩ : ∃ ds, (c :: rest).takeWhile Char.isDigit = ds := ⟨_, rfl⟩
            have hdig : ∀ d ∈ ds, d.isDigit = true := by
              intro d hd
              rw [← hds] at hd
              exact List.mem_takeWhile_imp hd
            rw [hds] at ht hds_ne ⊢
            rw [← ht, take_append_one]
            unfold isBulletCore
            right; right; right; right
            exact ⟨ds, ')', hds_ne, hdig, Or.inr rfl, rfl⟩
          · next => simp at h

lemma stripBullet_decomp (s : Str) :
    ∃ p t, s = p ++ t ∧ stripBullet s = trim t ∧ (p = [] ∨ isBulletPat p) := by
  cases ha : altLen s with
  | none =>
    refine ⟨[], s, rfl, ?_, Or.inl rfl⟩
    unfold stripBullet
    rw [ha]
  | some n =>
    refine ⟨s.take n ++ (s.drop n).takeWhile isWs, (s.drop n).dropWhile isWs, ?_, ?_,
      Or.inr ?_⟩
    · rw [List.append_assoc, List.takeWhile_append_dropWhile, List.take_append_drop]
    · unfold stripBullet
      rw [ha]
    · refine ⟨s.take n, (s.drop n).takeWhile isWs, ?_, ?_, rfl⟩
      · intro c hc
        exact List.mem_takeWhile_imp hc
      · exact bulletCore_of_altLen s n ha

/-- C5: at most one leading bullet/numbering marker, together with the
whitespace after it, is removed, from the start of the segment only: every
segment decomposes as an optional marker followed by a remainder, and the
stripper returns exactly the trimmed remainder. Repeated markers are not
stripped twice and markers not at the start are untouched; the spec's
numbered-list example holds. -/
theorem c5_strip_one_marker :
    (∀ s : Str, ∃ p t, s = p ++ t ∧ stripBullet s = trim t ∧
      (p = [] ∨ isBulletPat p)) ∧
    parseItems "1) First\n2) Second\n- Third".toList =
      ["First".toList, "Second".toList, "Third".toList] ∧
    stripBullet "- - x".toList = "- x".toList ∧
    stripBullet "1. 2. x".toList = "2. x".toList ∧
    stripBullet "x - y".toList = "x - y".toList :=
  ⟨stripBullet_decomp, by decide, by decide, by decide, by decide⟩

theorem c5_witness :
    ∃ p t, "- x".toList = p ++ t ∧ stripBullet "- x".toList = trim t ∧
      (p = [] ∨ isBulletPat p) :=
  c5_strip_one_marker.1 "- x".toList

lemma isBulletPat_of_strip_nil (y : Str) (hy : trim y = y) (hne : y ≠ [])
    (h : stripBullet y = []) : isBulletPat y := by
  obtain ⟨p, t, hpt, hs, hp⟩ := stripBullet_decomp y
  rcases hp with rfl | hp
  · exfalso
    rw [List.nil_append] at hpt
    subst hpt
    rw [hs] at h
    rw [hy] at h
    exact hne h
  · obtain ⟨core, ws, hws, hcore, rfl⟩ := hp
    have htws : ∀ c ∈ t, isWs c = true := (trim_eq_nil_iff t).mp (hs.symm.trans h)
    refine ⟨core, ws ++ t, ?_, hcore, ?_⟩
    · intro c hc
      rcases List.mem_append.mp hc with hc | hc
      · exact hws c hc
      · exact htws c hc
    · rw [hpt, List.append_assoc]

lemma mem_parseItems_src (s x : Str) (hx : x ∈ parseItems s) :
    ∃ seg, trim seg ≠ [] ∧ x = stripBullet (trim seg) := by
  simp only [parseItems] at hx
  by_cases h0 : trim s = []
  · rw [if_pos h0] at hx
    simp at hx
  · rw [if_neg h0] at hx
    by_cases hc : (!hasChar '\n' (normText s) &&
        (hasChar '\\' (normText s) || hasChar ',' (normText s))) = true
    · rw [if_pos hc] at hx
      obtain ⟨seg, hseg, hne, rfl⟩ := mem_cleanSegments _ _ hx
      exact ⟨seg, hne, rfl⟩
    · rw [if_neg hc] at hx
      obtain ⟨seg, hseg, hne, rfl⟩ := mem_cleanSegments _ _ hx
      exact ⟨seg, hne, rfl⟩

/-- C2 counterexample: the input consisting of a single hyphen parses to a
list containing the empty string, because the source filters blank
segments before stripping markers, not after. -/
theorem c2_counterexample :
    parseItems "-".toList = [[]] ∧ ([] : Str) ∈ parseItems "-".toList :=
  ⟨by decide, by decide⟩

/-- C2, amended: every item comes from a segment that was non-empty after
trimming (fully blank segments are dropped), but an item can still be the
empty string when its whole segment was a single bullet/numbering marker,
since the source filters before stripping. -/
theorem c2_items_from_nonblank_segments (s x : Str) (hx : x ∈ parseItems s) :
    ∃ y, y ≠ [] ∧ trim y = y ∧ x = stripBullet y ∧ (x = [] → isBulletPat y) := by
  obtain ⟨seg, hne, rfl⟩ := mem_parseItems_src s x hx
  refine ⟨trim seg, hne, trim_idem seg, rfl, ?_⟩
  intro hnil
  exact isBulletPat_of_strip_nil (trim seg) (trim_idem seg) hne hnil

theorem c2_witness :
    ("ok".toList ∈ parseItems "ok".toList) ∧
    (∃ y, y ≠ [] ∧ trim y = y ∧ "ok".toList = stripBullet y ∧
      ("ok".toList = [] → isBulletPat y)) :=
  ⟨by decide, c2_items_from_nonblank_segments "ok".toList "ok".toList (by decide)⟩

/-- Characters of an ordinary word for the escape-normalization statement:
not whitespace (in particular not a line break) and not a backslash. -/
def isWordChar (c : Char) : Bool := !isWs c && c != '\\'

lemma word_ws_false (c : Char) (h : isWordChar c = true) : isWs c = false := by
  unfold isWordChar at h
  rw [Bool.and_eq_true] at h
  have h1 := h.1
  simp at h1
  exact h1

lemma word_ne_bs (c : Char) (h : isWordChar c = true) : c ≠ '\\' := by
  unfold isWordChar at h
  rw [Bool.and_eq_true] at h
  have h2 := h.2
  simpa using h2

lemma word_not_mem (l : Str) (hw : ∀ c ∈ l, isWordChar c = true) (ch : Char)
    (hch : isWs ch = true) : ch ∉ l := by
  intro hm
  have := word_ws_false ch (hw ch hm)
  rw [hch] at this
  simp at this

lemma word_not_mem_bs (l : Str) (hw : ∀ c ∈ l, isWordChar c = true) : '\\' ∉ l := by
  intro hm
  exact word_ne_bs '\\' (hw '\\' hm) rfl

lemma normalizeEscapes_eq_self (s : Str) (h : '\\' ∉ s) : normalizeEscapes s = s := by
  unfold normalizeEscapes
  rw [replacePair_eq_self _ _ _ s h, replacePair_eq_self _ _ _ s h]

lemma normalizeBreaks_eq_self (s : Str) (hcr : '\r' ∉ s) (hls : '\u2028' ∉ s)
    (hps : '\u2029' ∉ s) : normalizeBreaks s = s := by
  unfold normalizeBreaks
  rw [replacePair_eq_self _ _ _ s hcr, mapChar_eq_self _ _ s hcr,
    mapChar_eq_self _ _ s hls, mapChar_eq_self _ _ s hps]

lemma normalizeEscapes_junction (a b : Str) (x : Char)
    (ha : '\\' ∉ a) (hb : '\\' ∉ b) (hx : x = 'r' ∨ x = 'n') :
    normalizeEscapes (a ++ '\\' :: x :: b) = a ++ '\n' :: b := by
  unfold normalizeEscapes
  rcases hx with rfl | rfl
  · have h1 : replacePair '\\' 'r' '\n' (a ++ '\\' :: 'r' :: b) = a ++ '\n' :: b := by
      rw [replacePair_append '\\' 'r' '\n' a _ ha]
      congr 1
      simp only [replacePair]
      rw [if_pos (by simp)]
      rw [replacePair_eq_self _ _ _ b hb]
    rw [h1]
    apply replacePair_eq_self
    intro hm
    rcases List.mem_append.mp hm with hm | hm
    · exact ha hm
    · rcases List.mem_cons.mp hm with hm | hm
      · simp at hm
      · exact hb hm
  · have h1 : replacePair '\\' 'r' '\n' (a ++ '\\' :: 'n' :: b) = a ++ '\\' :: 'n' :: b := by
      rw [replacePair_append '\\' 'r' '\n' a _ ha]
      congr 1
      simp only [replacePair]
      rw [if_neg (by simp)]
      congr 1
      apply replacePair_eq_self
      intro hm
      rcases List.mem_cons.mp hm with hm | hm
      · simp at hm
      · exact hb hm
    rw [h1]
    rw [replacePair_append '\\' 'n' '\n' a _ ha]
    congr 1
    simp only [replacePair]
    rw [if_pos (by simp)]
    rw [replacePair_eq_self _ _ _ b hb]

/-- C4: a literal backslash-r or backslash-n written between two words, in
an input with no real line break around it, is normalized into a newline
before the separator decision, so the parse is the same as with a real
newline there; in particular "a\nb" written as four characters parses to
two items. -/
theorem c4_literal_escape_normalized :
    (∀ (a b : Str) (x : Char), a ≠ [] → b ≠ [] →
      (∀ c ∈ a, isWordChar c = true) → (∀ c ∈ b, isWordChar c = true) →
      (x = 'r' ∨ x = 'n') →
      parseItems (a ++ '\\' :: x :: b) = parseItems (a ++ '\n' :: b)) ∧
    parseItems "a\\nb".toList = ["a".toList, "b".toList] ∧
    parseItems "a\\rb".toList = ["a".toList, "b".toList] := by
  refine ⟨?_, by decide, by decide⟩
  intro a b x hane hbne hwa hwb hx
  cases a with
  | nil => exact absurd rfl hane
  | cons c₀ a' =>
  rcases List.eq_nil_or_concat b with rfl | ⟨b', d, rfl⟩
  · exact absurd rfl hbne
  · rw [List.concat_eq_append] at hbne hwb ⊢
    have hc₀w : isWordChar c₀ = true := hwa c₀ (List.mem_cons_self c₀ a')
    have hdw : isWordChar d = true := hwb d (by simp)
    have hc₀ : isWs c₀ = false := word_ws_false c₀ hc₀w
    have hd : isWs d = false := word_ws_false d hdw
    have hbs_a : '\\' ∉ c₀ :: a' := word_not_mem_bs _ hwa
    have hbs_b : '\\' ∉ b' ++ [d] := word_not_mem_bs _ hwb
    have hsplit₁ : (c₀ :: a') ++ '\\' :: x :: (b' ++ [d]) =
        c₀ :: ((a' ++ '\\' :: x :: b') ++ [d]) := by
      simp
    have hsplit₂ : (c₀ :: a') ++ '\n' :: (b' ++ [d]) =
        c₀ :: ((a' ++ '\n' :: b') ++ [d]) := by
      simp
    have htrim₁ : trim ((c₀ :: a') ++ '\\' :: x :: (b' ++ [d])) =
        (c₀ :: a') ++ '\\' :: x :: (b' ++ [d]) := by
      rw [hsplit₁]
      exact trim_cons_concat c₀ d _ hc₀ hd
    have htrim₂ : trim ((c₀ :: a') ++ '\n' :: (b' ++ [d])) =
        (c₀ :: a') ++ '\n' :: (b' ++ [d]) := by
      rw [hsplit₂]
      exact trim_cons_concat c₀ d _ hc₀ hd
    have hmem : ∀ ch : Char, isWs ch = true → ch ≠ '\n' →
        ch ∉ (c₀ :: a') ++ '\n' :: (b' ++ [d]) := by
      intro ch hch hne hm
      rcases List.mem_append.mp hm with hm | hm
      · exact word_not_mem _ hwa ch hch hm
      · rcases List.mem_cons.mp hm with hm | hm
        · exact hne hm
        · exact word_not_mem _ hwb ch hch hm
    have hu : normalizeBreaks ((c₀ :: a') ++ '\n' :: (b' ++ [d])) =
        (c₀ :: a') ++ '\n' :: (b' ++ [d]) :=
      normalizeBreaks_eq_self _
        (hmem '\r' (by decide) (by decide))
        (hmem '\u2028' (by decide) (by decide))
        (hmem '\u2029' (by decide) (by decide))
    have hbs_u : '\\' ∉ (c₀ :: a') ++ '\n' :: (b' ++ [d]) := by
      intro hm
      rcases List.mem_append.mp hm with hm | hm
      · exact hbs_a hm
      · rcases List.mem_cons.mp hm with hm | hm
        · simp at hm
        · exact hbs_b hm
    have hkey₁ : normText ((c₀ :: a') ++ '\\' :: x :: (b' ++ [d])) =
        (c₀ :: a') ++ '\n' :: (b' ++ [d]) := by
      unfold normText
      rw [htrim₁, normalizeEscapes_junction _ _ x hbs_a hbs_b hx, hu]
    have hkey₂ : normText ((c₀ :: a') ++ '\n' :: (b' ++ [d])) =
        (c₀ :: a') ++ '\n' :: (b' ++ [d]) := by
      unfold normText
      rw [htrim₂, normalizeEscapes_eq_self _ hbs_u, hu]
    have hts₁ : trim ((c₀ :: a') ++ '\\' :: x :: (b' ++ [d])) ≠ [] := by
      rw [htrim₁]
      simp
    have hts₂ : trim ((c₀ :: a') ++ '\n' :: (b' ++ [d])) ≠ [] := by
      rw [htrim₂]
      simp
    rw [parseItems_branch _ hts₁, parseItems_branch _ hts₂, hkey₁, hkey₂]

theorem c4_witness :
    parseItems ('a' :: '\\' :: 'n' :: ['b']) = parseItems ('a' :: '\n' :: ['b']) :=
  c4_literal_escape_normalized.1 ['a'] ['b'] 'n' (by decide) (by decide)
    (by decide) (by decide) (Or.inr rfl)

theorem c6_witness :
    parseItems "a,b".toList = (rawSegments "a,b".toList).filterMap procSeg :=
  c6_order_preserved.1 "a,b".toList
